import Mathlib

/-!
Verification development for the `web` static-site build engine.

The Go source is shallowly embedded: pure computations (the SHA-256 based
asset fingerprint and the filename transform of `copyAssets`) become Lean
functions on `List Nat` (bytes) and `List Char` (filename characters);
the effectful build pipeline (`Build`, `render`, `runCommands`,
`copyAssets`, `copyPublicFiles`) becomes a function from a `Site` model
and an environment of I/O outcomes to a build result recording the phases
entered, the output-file map, the asset table and the returned error; the
self-extending configuration queue of `New` becomes a drain function over
forests of configuration steps.
-/

namespace Web

/-! ## SHA-256 over byte lists (crypto/sha256 as used by `copyAssets`) -/

/-- Addition of two 32-bit words modulo 2^32. -/
def add32 (a b : Nat) : Nat := (a + b) % 4294967296

/-- Right rotation of a 32-bit word by `n` bits. -/
def rotr32 (n x : Nat) : Nat := ((x >>> n) ||| (x <<< (32 - n))) % 4294967296

/-- Logical right shift of a 32-bit word. -/
def shr32 (n x : Nat) : Nat := x >>> n

/-- Bitwise complement within 32 bits. -/
def not32 (x : Nat) : Nat := x ^^^ 4294967295

/-- SHA-256 big sigma 0. -/
def bsig0 (x : Nat) : Nat := (rotr32 2 x) ^^^ (rotr32 13 x) ^^^ (rotr32 22 x)

/-- SHA-256 big sigma 1. -/
def bsig1 (x : Nat) : Nat := (rotr32 6 x) ^^^ (rotr32 11 x) ^^^ (rotr32 25 x)

/-- SHA-256 small sigma 0. -/
def ssig0 (x : Nat) : Nat := (rotr32 7 x) ^^^ (rotr32 18 x) ^^^ (shr32 3 x)

/-- SHA-256 small sigma 1. -/
def ssig1 (x : Nat) : Nat := (rotr32 17 x) ^^^ (rotr32 19 x) ^^^ (shr32 10 x)

/-- SHA-256 choose function. -/
def ch (x y z : Nat) : Nat := (x &&& y) ^^^ ((not32 x) &&& z)

/-- SHA-256 majority function. -/
def maj (x y z : Nat) : Nat := (x &&& y) ^^^ (x &&& z) ^^^ (y &&& z)

/-- The 64 SHA-256 round constants. -/
def K256 : List Nat :=
  [1116352408, 1899447441, 3049323471, 3921009573, 961987163, 1508970993,
   2453635748, 2870763221, 3624381080, 310598401, 607225278, 1426881987,
   1925078388, 2162078206, 2614888103, 3248222580, 3835390401, 4022224774,
   264347078, 604807628, 770255983, 1249150122, 1555081692, 1996064986,
   2554220882, 2821834349, 2952996808, 3210313671, 3336571891, 3584528711,
   113926993, 338241895, 666307205, 773529912, 1294757372, 1396182291,
   1695183700, 1986661051, 2177026350, 2456956037, 2730485921, 2820302411,
   3259730800, 3345764771, 3516065817, 3600352804, 4094571909, 275423344,
   430227734, 506948616, 659060556, 883997877, 958139571, 1322822218,
   1537002063, 1747873779, 1955562222, 2024104815, 2227730452, 2361852424,
   2428436474, 2756734187, 3204031479, 3329325298]

/-- State of the eight SHA-256 working variables / hash words. -/
structure Hash8 where
  a : Nat
  b : Nat
  c : Nat
  d : Nat
  e : Nat
  f : Nat
  g : Nat
  h : Nat
  deriving Repr, DecidableEq

/-- The SHA-256 initial hash value. -/
def initH : Hash8 :=
  ⟨1779033703, 3144134277, 1013904242, 2773480762,
   1359893119, 2600822924, 528734635, 1541459225⟩

/-- One SHA-256 compression round for a given constant/schedule pair. -/
def roundStep (st : Hash8) (kw : Nat × Nat) : Hash8 :=
  let t1 := add32 st.h (add32 (bsig1 st.e) (add32 (ch st.e st.f st.g) (add32 kw.1 kw.2)))
  let t2 := add32 (bsig0 st.a) (maj st.a st.b st.c)
  ⟨add32 t1 t2, st.a, st.b, st.c, add32 st.d t1, st.e, st.f, st.g⟩

/-- Extend a 16-word message block by `n` further schedule words. -/
def extendW (w : List Nat) : Nat → List Nat
  | 0 => w
  | n + 1 =>
      let w2 := extendW w n
      let len := w2.length
      w2 ++ [add32 (add32 (ssig1 (w2.getD (len - 2) 0)) (w2.getD (len - 7) 0))
               (add32 (ssig0 (w2.getD (len - 15) 0)) (w2.getD (len - 16) 0))]

/-- SHA-256 compression of a single 16-word block into the running hash. -/
def compressBlock (h0 : Hash8) (block : List Nat) : Hash8 :=
  let w := extendW block 48
  let st := (K256.zip w).foldl roundStep h0
  ⟨add32 h0.a st.a, add32 h0.b st.b, add32 h0.c st.c, add32 h0.d st.d,
   add32 h0.e st.e, add32 h0.f st.f, add32 h0.g st.g, add32 h0.h st.h⟩

/-- Big-endian byte encoding of a value into `n` bytes. -/
def toBytesBE : Nat → Nat → List Nat
  | 0, _ => []
  | n + 1, v => toBytesBE n (v / 256) ++ [v % 256]

/-- SHA-256 message padding: append 0x80, zero bytes, and the 64-bit
big-endian bit length, reaching a multiple of 64 bytes. -/
def padMessage (msg : List Nat) : List Nat :=
  let zeros := (119 - msg.length % 64) % 64
  msg ++ 128 :: (List.replicate zeros 0 ++ toBytesBE 8 (msg.length * 8))

/-- Group bytes into 32-bit big-endian words. -/
def bytesToWords : List Nat → List Nat
  | b0 :: b1 :: b2 :: b3 :: rest =>
      (((b0 * 256 + b1) * 256 + b2) * 256 + b3) :: bytesToWords rest
  | _ => []

/-- Group a word list into 16-word blocks. -/
def words16 : List Nat → List (List Nat)
  | w0 :: w1 :: w2 :: w3 :: w4 :: w5 :: w6 :: w7 ::
    w8 :: w9 :: w10 :: w11 :: w12 :: w13 :: w14 :: w15 :: rest =>
      [w0, w1, w2, w3, w4, w5, w6, w7, w8, w9, w10, w11, w12, w13, w14, w15]
        :: words16 rest
  | _ => []

/-- Big-endian bytes of one 32-bit word. -/
def wordBytes (w : Nat) : List Nat :=
  [w / 16777216 % 256, w / 65536 % 256, w / 256 % 256, w % 256]

/-- SHA-256 of a byte list, as a list of 32 bytes. -/
def sha256 (msg : List Nat) : List Nat :=
  let hh := (words16 (bytesToWords (padMessage msg))).foldl compressBlock initH
  wordBytes hh.a ++ wordBytes hh.b ++ wordBytes hh.c ++ wordBytes hh.d ++
  wordBytes hh.e ++ wordBytes hh.f ++ wordBytes hh.g ++ wordBytes hh.h

/-! ## Lowercase hex encoding and the 7-character digest -/

/-- The lowercase hexadecimal alphabet. -/
def hexAlphabet : List Char := "0123456789abcdef".toList

/-- Lowercase hex digit for a value below 16. -/
def hexDigit (n : Nat) : Char := hexAlphabet.getD n '0'

/-- Two lowercase hex characters of one byte. -/
def byteHexChars (b : Nat) : List Char := [hexDigit (b / 16), hexDigit (b % 16)]

/-- Lowercase hex encoding of a byte list (encoding/hex). -/
def hexChars (bs : List Nat) : List Char := bs.flatMap byteHexChars

/-- Fingerprint digest of a file's bytes: the first 7 characters of the
lowercase hex SHA-256, as computed in `copyAssets`. -/
def digestChars (data : List Nat) : List Char := (hexChars (sha256 data)).take 7

/-! ## The filename transform of `copyAssets` -/

/-- Byte index of the last occurrence of a dot, mirroring
`strings.LastIndex(fileName, ".")` (with `none` for Go's `-1`). -/
def lastDotIdx : List Char → Option Nat
  | [] => none
  | c :: rest =>
      match lastDotIdx rest with
      | some i => some (i + 1)
      | none => if c = '.' then some 0 else none

/-- Filename rewrite of `copyAssets`: with a dot at last index `i`, the
result is `fileName[0:i] + "." + digest + fileName[i:]`; with no dot, the
digest is appended after a dot. -/
def goAssetFileName (fileName digest : List Char) : List Char :=
  match lastDotIdx fileName with
  | some i => fileName.take i ++ '.' :: (digest ++ fileName.drop i)
  | none => fileName ++ '.' :: digest

/-- Full derivation of the fingerprinted output filename of an asset from
its base filename and its bytes, as in `copyAssets`. -/
def outputAssetName (fileName : List Char) (data : List Nat) : List Char :=
  goAssetFileName fileName (digestChars data)

/-- Bytes of the 5-byte file content used by the repository's test. -/
def imageBytes : List Nat := [105, 109, 97, 103, 101]

/-! ## Spec-side filename derivation

The specification states the transform as `stem + "." + digest + extension`
where the extension is the last dot-delimited extension of the base name
(with its dot), and `filename + "." + digest` when there is no extension.
These definitions follow that wording, to be compared with
`goAssetFileName` above. -/

/-- Stem of a name containing a dot: everything before the last dot. -/
def specStem (name : List Char) : List Char :=
  ((name.reverse.dropWhile (fun c => c ≠ '.')).drop 1).reverse

/-- Extension of a name containing a dot: the last dot and everything
after it. -/
def specExt (name : List Char) : List Char :=
  '.' :: (name.reverse.takeWhile (fun c => c ≠ '.')).reverse

/-- Fingerprinted filename as the specification words it. -/
def specAssetFileName (fileName digest : List Char) : List Char :=
  if '.' ∈ fileName then specStem fileName ++ '.' :: (digest ++ specExt fileName)
  else fileName ++ '.' :: digest

/-! ## Build pipeline model

The effectful phases of `Build` are embedded as functions from the `Site`
registries and an environment of I/O outcomes (results of the `os` calls
and of the opaque renderer callbacks) to explicit results. The output
directory is a finite map from output-relative path to byte content; a
write prepends, and lookup takes the newest binding, matching
last-write-wins of the file system. Log output other than the render-phase
error messages is not modelled. -/

/-- Output-directory contents: path to file bytes mapping. -/
abbrev FS := List (List Char × List Nat)

/-- Asset table: logical name to fingerprinted relative path. -/
abbrev Table := List (List Char × List Char)

/-- Map update (last write wins under `lookupA`). -/
def insertA {α : Type} (t : List (List Char × α)) (k : List Char) (v : α) :
    List (List Char × α) :=
  (k, v) :: t

/-- Map lookup returning the newest binding of a key. -/
def lookupA {α : Type} : List (List Char × α) → List Char → Option α
  | [], _ => none
  | (k, v) :: rest, key => if k = key then some v else lookupA rest key

/-- Path join mirroring `filepath.Join` on the shapes used here. -/
def joinPath (d b : List Char) : List Char :=
  if d = [] then b else if b = [] then d else d ++ '/' :: b

/-- One regular file under the assets directory, with the outcomes of the
`os.ReadFile` and `os.WriteFile` calls `copyAssets` performs on it.
`dir` is its directory relative to the assets directory (empty for the
top level) and `base` its base filename. -/
structure AssetFile where
  dir : List Char
  base : List Char
  bytes : List Nat
  readErr : Option String
  writeErr : Option String

/-- One file under the public directory, with the outcome of the copy
performed by `copyPublicFiles` (any of its create/open/copy/close steps). -/
structure PubFile where
  relPath : List Char
  bytes : List Nat
  err : Option String

/-- Behaviour of one registered renderer at build time: outcomes of the
`os.MkdirAll` and `os.Create` calls of `render`, the bytes the opaque
callback writes to the sink before returning, the callback's result, and
the outcome of the final `Close`. -/
structure RenderBehavior where
  mkdirErr : Option String
  createErr : Option String
  written : List Nat
  renderErr : Option String
  closeErr : Option String
  deriving DecidableEq, Repr

/-- Model of the `Site` state read by `Build`: the assets route segment,
the command registry, the renderer registry (as a list in the map's
iteration order, which Go leaves unspecified), and the asset table. -/
structure SiteB where
  assetsDirName : List Char
  commands : List String
  renderers : List (List Char × RenderBehavior)
  assets : Table

/-- Environment of I/O outcomes for one `Build` invocation. -/
structure BuildEnv where
  removeErr : Option String
  mkdirErr : Option String
  cmdErrs : List (Option String)
  assetsDirMissing : Bool
  assetFiles : List AssetFile
  publicDirMissing : Bool
  pubFiles : List PubFile

/-- The phases of `Build`, in source order. -/
inductive Phase where
  | removeOut
  | createOut
  | commands
  | assets
  | publicFiles
  | render
  deriving DecidableEq, Repr

/-- All six phases in the order `Build` executes them. -/
def allPhases : List Phase :=
  [Phase.removeOut, Phase.createOut, Phase.commands, Phase.assets,
   Phase.publicFiles, Phase.render]

/-- Error wrapper prefix of the reset-delete step. -/
def msgRemove : String := "remove output dir: "

/-- Error wrapper prefix of the reset-create step. -/
def msgCreate : String := "create output dir: "

/-- Error wrapper prefix of the command phase. -/
def msgCommands : String := "run commands: "

/-- Error wrapper prefix of the asset phase. -/
def msgAssets : String := "copy assets: "

/-- Error wrapper prefix of the public-copy phase. -/
def msgPublic : String := "copy public files: "

/-- Model of `runCommands`: each command runs in order; the first failing
command aborts with its error wrapped with the quoted command text. A
missing outcome in the environment counts as success. -/
def runCommandsModel : List String → List (Option String) → Option String
  | [], _ => none
  | _ :: _, [] => none
  | c :: cs, r :: rs =>
      match r with
      | some e => some ("\"" ++ c ++ "\": " ++ e ++ "\n")
      | none => runCommandsModel cs rs

/-- Result of the asset-copy walk: the asset table, the output files, and
the error that stopped the walk, when one did. -/
structure AssetPhaseResult where
  table : Table
  fs : FS
  err : Option String

/-- Walk body of `copyAssets` over the regular files: read the bytes,
derive the fingerprinted name, write the file into the output tree under
the assets directory, then record the table entry, stopping at the first
failing file. -/
def copyAssetsGo (assetsDirName : List Char) :
    List AssetFile → Table → FS → AssetPhaseResult
  | [], table, fs => ⟨table, fs, none⟩
  | f :: rest, table, fs =>
      match f.readErr with
      | some e => ⟨table, fs, some e⟩
      | none =>
          let newName := goAssetFileName f.base (digestChars f.bytes)
          match f.writeErr with
          | some e => ⟨table, fs, some e⟩
          | none =>
              copyAssetsGo assetsDirName rest
                (insertA table (joinPath f.dir f.base) (joinPath f.dir newName))
                (insertA fs (joinPath assetsDirName (joinPath f.dir newName)) f.bytes)

/-- Model of `copyAssets`: a missing assets directory is a silent no-op,
otherwise the walk over the asset files runs. -/
def copyAssetsModel (s : SiteB) (env : BuildEnv) (fs : FS) : AssetPhaseResult :=
  if env.assetsDirMissing then ⟨s.assets, fs, none⟩
  else copyAssetsGo s.assetsDirName env.assetFiles s.assets fs

/-- Result of the public-copy walk. -/
structure PubPhaseResult where
  fs : FS
  err : Option String

/-- Walk body of `copyPublicFiles`: mirror each file verbatim, stopping at
the first failing file. -/
def copyPublicGo : List PubFile → FS → PubPhaseResult
  | [], fs => ⟨fs, none⟩
  | f :: rest, fs =>
      match f.err with
      | some e => ⟨fs, some e⟩
      | none => copyPublicGo rest (insertA fs f.relPath f.bytes)

/-- Model of `copyPublicFiles`: a missing public directory is a silent
no-op, otherwise the walk runs. -/
def copyPublicModel (env : BuildEnv) (fs : FS) : PubPhaseResult :=
  if env.publicDirMissing then ⟨fs, none⟩
  else copyPublicGo env.pubFiles fs

/-- Result of one `render` call: the updated output files, whether the
renderer callback itself was invoked, and the error `render` returned. -/
structure RenderStepResult where
  fs : FS
  invoked : Bool
  err : Option String

/-- Model of `render` for one (path, renderer) pair: create the parent
directories, create (truncate) the output file, invoke the renderer, and
close the file. After a successful create the file exists with whatever
the renderer wrote, also when the renderer or the close fails: the file
is not removed on failure. -/
def renderModel (path : List Char) (r : RenderBehavior) (fs : FS) :
    RenderStepResult :=
  match r.mkdirErr with
  | some e => ⟨fs, false, some e⟩
  | none =>
      match r.createErr with
      | some e => ⟨fs, false, some e⟩
      | none =>
          match r.renderErr with
          | some e => ⟨insertA fs path r.written, true, some e⟩
          | none =>
              match r.closeErr with
              | some e => ⟨insertA fs path r.written, true, some e⟩
              | none => ⟨insertA fs path r.written, true, none⟩

/-- Whether `render` reaches the renderer callback for a behaviour. -/
def rInvoked (r : RenderBehavior) : Bool :=
  r.mkdirErr.isNone && r.createErr.isNone

/-- The error `render` returns for a behaviour (its first failing step). -/
def rStepErr (r : RenderBehavior) : Option String :=
  match r.mkdirErr with
  | some e => some e
  | none =>
      match r.createErr with
      | some e => some e
      | none =>
          match r.renderErr with
          | some e => some e
          | none => r.closeErr

/-- Log line `Build` emits when `render` fails for a path. -/
def renderErrLog (p : List Char) (e : String) : String :=
  "error rendering " ++ String.mk p ++ ": " ++ e ++ "\n"

/-- Result of the render phase: output files, the per-path trace of
(path, renderer invoked, step error), and the error log lines. -/
structure RenderPhaseResult where
  fs : FS
  trace : List (List Char × Bool × Option String)
  logs : List String

/-- The render loop of `Build`: every registered pair is processed; a
failing `render` call is logged and the loop continues. -/
def renderPhase : List (List Char × RenderBehavior) → FS → RenderPhaseResult
  | [], fs => ⟨fs, [], []⟩
  | (p, r) :: rest, fs =>
      let st := renderModel p r fs
      let logsHere :=
        match st.err with
        | some e => [renderErrLog p e]
        | none => []
      let tail := renderPhase rest st.fs
      ⟨tail.fs, (p, st.invoked, st.err) :: tail.trace, logsHere ++ tail.logs⟩

/-- Result of one `Build` invocation: the phases entered in order, the
asset table and registries after the build, the output files, the render
trace and logs, and the returned error (`none` for a nil return). -/
structure BuildResult where
  phases : List Phase
  assetsAfter : Table
  commandsAfter : List String
  renderersAfter : List (List Char × RenderBehavior)
  outFiles : FS
  renderTrace : List (List Char × Bool × Option String)
  logs : List String
  result : Option String

/-- Model of `Site.Build`: reset the output directory, run the commands,
copy the assets, copy the public files, then render, returning at the
first failure of the first four phases with the error wrapped with the
phase message. The Go method never assigns to the command or renderer
registries, so they pass through unchanged. -/
def Build (s : SiteB) (env : BuildEnv) : BuildResult :=
  match env.removeErr with
  | some e =>
      ⟨[Phase.removeOut], s.assets, s.commands, s.renderers, [], [], [],
       some (msgRemove ++ e)⟩
  | none =>
  match env.mkdirErr with
  | some e =>
      ⟨[Phase.removeOut, Phase.createOut], s.assets, s.commands, s.renderers,
       [], [], [], some (msgCreate ++ e)⟩
  | none =>
  match runCommandsModel s.commands env.cmdErrs with
  | some e =>
      ⟨[Phase.removeOut, Phase.createOut, Phase.commands], s.assets,
       s.commands, s.renderers, [], [], [], some (msgCommands ++ e)⟩
  | none =>
  let ar := copyAssetsModel s env []
  match ar.err with
  | some e =>
      ⟨[Phase.removeOut, Phase.createOut, Phase.commands, Phase.assets],
       ar.table, s.commands, s.renderers, ar.fs, [], [],
       some (msgAssets ++ e)⟩
  | none =>
  let pr := copyPublicModel env ar.fs
  match pr.err with
  | some e =>
      ⟨[Phase.removeOut, Phase.createOut, Phase.commands, Phase.assets,
        Phase.publicFiles],
       ar.table, s.commands, s.renderers, pr.fs, [], [],
       some (msgPublic ++ e)⟩
  | none =>
  let rr := renderPhase s.renderers pr.fs
  ⟨allPhases, ar.table, s.commands, s.renderers, rr.fs, rr.trace, rr.logs,
   none⟩

/-! ## Asset lookup -/

/-- Panic message of `Asset` for a missing name: the Go code reassigns
`name` to the zero-valued map result before formatting, so the quoted
name in the message is always empty. -/
def panicMsgAsset : String := "asset \"\" not found"

/-- Model of `Site.Asset`: look the logical name up in the asset table;
a missing name panics (modelled as `Except.error` carrying the panic
message), a present name yields the recorded path prefixed by a slash and
the assets route segment. -/
def AssetModel (assetsDirName : List Char) (table : Table) (name : List Char) :
    Except String (List Char) :=
  match lookupA table name with
  | none => Except.error panicMsgAsset
  | some p => Except.ok ('/' :: (assetsDirName ++ '/' :: p))

/-! ## Configuration queue

A configuration step is opaque Go code that, when invoked, may append
further steps to the pending queue via `Site.Configure` and then returns
a result. A step is therefore modelled by the list of steps it enqueues
(its children), its result, and a label identifying it; a forest of such
steps covers every pattern of steps enqueuing further steps. The other
registrations a step may perform (renderers, commands) do not influence
the drain and are not modelled here. -/

/-- One configuration step: a label, the error it returns (if any), and
the steps it appends to the queue before returning. -/
inductive Step where
  | mk (label : Nat) (err : Option String) (children : List Step)

/-- Label of a step. -/
def Step.label : Step → Nat
  | .mk l _ _ => l

/-- Result of a step. -/
def Step.err : Step → Option String
  | .mk _ e _ => e

/-- Steps a step enqueues. -/
def Step.children : Step → List Step
  | .mk _ _ cs => cs

/-- Number of steps in a forest, counting every descendant. -/
def sizeL : List Step → Nat
  | [] => 0
  | .mk _ _ cs :: rest => 1 + sizeL cs + sizeL rest

/-- Drain loop of `New`: pop the head of the queue, run it (its children
go to the tail of the queue), and stop at the first error, abandoning the
queue. Returns the labels of the invoked steps in invocation order and
the error, when one occurred. -/
def drainTrace : List Step → List Nat × Option String
  | [] => ([], none)
  | .mk l e cs :: rest =>
      match e with
      | some msg => ([l], some msg)
      | none =>
          let p := drainTrace (rest ++ cs)
          (l :: p.1, p.2)
termination_by q => sizeL q
decreasing_by
  have happ : ∀ a b : List Step, sizeL (a ++ b) = sizeL a + sizeL b := by
    intro a
    induction a with
    | nil => intro b; simp [sizeL]
    | cons s rest ih =>
        intro b
        cases s with
        | mk l e cs => simp [sizeL, ih]; omega
  simp [sizeL, happ]
  omega

/-- Model of `New`: drain the queue seeded with the initial configurer;
an error of any step makes construction fail with that error and no Site
is returned, otherwise the trace of invoked steps stands in for the
configured Site. -/
def NewModel (initial : Step) : Except String (List Nat) :=
  match drainTrace [initial] with
  | (tr, none) => Except.ok tr
  | (_, some e) => Except.error e

/-- Whether every step of a forest, descendants included, succeeds. -/
def allOkL : List Step → Bool
  | [] => true
  | .mk _ e cs :: rest => e.isNone && allOkL cs && allOkL rest

/-- Labels of a forest in depth-first order: the reference enumeration of
each step exactly once. -/
def dfsL : List Step → List Nat
  | [] => []
  | .mk l _ cs :: rest => l :: (dfsL cs ++ dfsL rest)

/-- Labels of a forest in breadth-first (generation) order: all roots
first, then the levels of all their children together. -/
def levelOrder : List Step → List Nat
  | [] => []
  | s :: rest =>
      (s :: rest).map Step.label ++ levelOrder ((s :: rest).flatMap Step.children)
termination_by q => sizeL q
decreasing_by
  have happ : ∀ a b : List Step, sizeL (a ++ b) = sizeL a + sizeL b := by
    intro a
    induction a with
    | nil => intro b; simp [sizeL]
    | cons t rest2 ih =>
        intro b
        cases t with
        | mk l e cs => simp [sizeL, ih]; omega
  have hchild : ∀ q : List Step, sizeL (q.flatMap Step.children) + q.length = sizeL q := by
    intro q
    induction q with
    | nil => simp [sizeL]
    | cons t rest2 ih =>
        cases t with
        | mk l e cs => simp [sizeL, Step.children, happ]; omega
  have h1 := hchild (s :: rest)
  simp [sizeL] at h1 ⊢
  omega

/-- Labels of a forest with the step results, in breadth-first order. -/
def levelAnn : List Step → List (Nat × Option String)
  | [] => []
  | s :: rest =>
      (s :: rest).map (fun t => (t.label, t.err)) ++
        levelAnn ((s :: rest).flatMap Step.children)
termination_by q => sizeL q
decreasing_by
  have happ : ∀ a b : List Step, sizeL (a ++ b) = sizeL a + sizeL b := by
    intro a
    induction a with
    | nil => intro b; simp [sizeL]
    | cons t rest2 ih =>
        intro b
        cases t with
        | mk l e cs => simp [sizeL, ih]; omega
  have hchild : ∀ q : List Step, sizeL (q.flatMap Step.children) + q.length = sizeL q := by
    intro q
    induction q with
    | nil => simp [sizeL]
    | cons t rest2 ih =>
        cases t with
        | mk l e cs => simp [sizeL, Step.children, happ]; omega
  have h1 := hchild (s :: rest)
  simp [sizeL] at h1 ⊢
  omega

/-- Scan of an annotated label sequence that stops at the first error:
the reference description of a FIFO drain that abandons the queue on
failure. -/
def runUntilErr : List (Nat × Option String) → List Nat × Option String
  | [] => ([], none)
  | (l, some e) :: _ => ([l], some e)
  | (l, none) :: rest =>
      let p := runUntilErr rest
      (l :: p.1, p.2)

/-! ## Concrete inputs for witnesses and counterexamples -/

/-- The default assets route segment of `New`. -/
def assetsSeg : List Char := ['a', 's', 's', 'e', 't', 's']

/-- Concrete base filename with an extension. -/
def styleName : List Char := ['s', 't', 'y', 'l', 'e', '.', 'c', 's', 's']

/-- First of two base names with identical file bytes. -/
def nameA : List Char := ['a', '.', 'p', 'n', 'g']

/-- Second of two base names with identical file bytes. -/
def nameB : List Char := ['b', '.', 'p', 'n', 'g']

/-- Characters of a dotfile name after its leading dot. -/
def gitignoreRest : List Char := ['g', 'i', 't', 'i', 'g', 'n', 'o', 'r', 'e']

/-- Concrete digest characters for the dotfile check. -/
def digest9 : List Char := ['a', 'b', 'c', 'd', 'e', 'f', '0']

/-- Asset table key for the lookup checks. -/
def imgKey : List Char := ['i', 'm', 'a', 'g', 'e', '.', 'p', 'n', 'g']

/-- Fingerprinted path recorded for `imgKey`. -/
def imgVal : List Char :=
  ['i', 'm', 'a', 'g', 'e', '.', '6', '1', '0', '5', 'd', '6', 'c', '.', 'p', 'n', 'g']

/-- One-entry asset table for the lookup checks. -/
def table8 : Table := [(imgKey, imgVal)]

/-- Logical name absent from `table8`. -/
def missName8 : List Char := ['x']

/-- Site with no registrations. -/
def site2 : SiteB := ⟨assetsSeg, [], [], []⟩

/-- Environment where every phase succeeds and both source trees are
missing. -/
def env2 : BuildEnv := ⟨none, none, [], true, [], true, []⟩

/-- Error a failing renderer returns in the isolation check. -/
def msg3 : String := "render failed"

/-- Renderer behaviour that succeeds after writing two bytes. -/
def rOk3 : RenderBehavior := ⟨none, none, [104, 105], none, none⟩

/-- Renderer behaviour that fails without writing. -/
def rBad3 : RenderBehavior := ⟨none, none, [], some msg3, none⟩

/-- Output path of the failing renderer. -/
def pBad3 : List Char := ['b']

/-- Output path of the succeeding renderer. -/
def pGood3 : List Char := ['g']

/-- Site registering a failing renderer before a succeeding one. -/
def site3 : SiteB := ⟨assetsSeg, [], [(pBad3, rBad3), (pGood3, rOk3)], []⟩

/-- All-success environment for the isolation check. -/
def env3 : BuildEnv := ⟨none, none, [], true, [], true, []⟩

/-- Error of the partially writing renderer. -/
def msg10 : String := "sink closed early"

/-- Renderer behaviour that writes two bytes and then fails. -/
def r10 : RenderBehavior := ⟨none, none, [60, 104], some msg10, none⟩

/-- Output path of the partially writing renderer. -/
def p10 : List Char := ['o', 'u', 't']

/-- Site registering only the partially writing renderer. -/
def site10 : SiteB := ⟨assetsSeg, [], [(p10, r10)], []⟩

/-- All-success environment for the partial-file check. -/
def env10 : BuildEnv := ⟨none, none, [], true, [], true, []⟩

/-- Asset file consumed by the table-mutation check. -/
def af6 : AssetFile := ⟨[], imgKey, imageBytes, none, none⟩

/-- Site with an empty asset table. -/
def site6 : SiteB := ⟨assetsSeg, [], [], []⟩

/-- Environment whose assets directory holds one file. -/
def env6 : BuildEnv := ⟨none, none, [], false, [af6], true, []⟩

/-- Forest of succeeding configuration steps: step 0 enqueues 2 and 3,
step 1 enqueues 4, step 2 enqueues 5. -/
def q4 : List Step :=
  [Step.mk 0 none [Step.mk 2 none [Step.mk 5 none []], Step.mk 3 none []],
   Step.mk 1 none [Step.mk 4 none []]]

/-- Error returned by the failing configuration step. -/
def msg7 : String := "configure failed"

/-- Initial configurer whose first enqueued step fails while a sibling
and a grandchild are still queued. -/
def init7 : Step :=
  Step.mk 0 none
    [Step.mk 1 (some msg7) [Step.mk 3 none []], Step.mk 2 none []]

/-! ## Lemmas on the filename transform -/

theorem digestChars_imageBytes :
    digestChars imageBytes = ['6', '1', '0', '5', 'd', '6', 'c'] := by
  decide

theorem lastDotIdx_none_iff (name : List Char) :
    lastDotIdx name = none ↔ '.' ∉ name := by
  induction name with
  | nil => simp [lastDotIdx]
  | cons c rest ih =>
      cases h : lastDotIdx rest with
      | some i =>
          have hmem : ('.' : Char) ∈ rest := by
            by_contra hc
            rw [ih.mpr hc] at h
            cases h
          simp [lastDotIdx, h, hmem]
      | none =>
          have hnm : ('.' : Char) ∉ rest := ih.mp h
          by_cases hc : c = '.'
          · subst hc
            simp [lastDotIdx, h]
          · have hc2 : ¬('.' : Char) = c := fun hh => hc hh.symm
            simp [lastDotIdx, h, hc, hnm, hc2]

theorem lastDotIdx_some (name : List Char) (i : Nat)
    (h : lastDotIdx name = some i) :
    ∃ pre post, name = pre ++ '.' :: post ∧ pre.length = i ∧ '.' ∉ post := by
  induction name generalizing i with
  | nil => cases h
  | cons c rest ih =>
      cases hr : lastDotIdx rest with
      | some j =>
          have hij : i = j + 1 := by
            rw [lastDotIdx, hr] at h
            exact (Option.some_inj.mp h).symm
          obtain ⟨pre, post, hn, hl, hp⟩ := ih j hr
          exact ⟨c :: pre, post, by simp [hn], by simp [hl, hij], hp⟩
      | none =>
          rw [lastDotIdx, hr] at h
          by_cases hc : c = '.'
          · subst hc
            simp only [if_pos rfl] at h
            obtain rfl : i = 0 := (Option.some_inj.mp h).symm
            exact ⟨[], rest, rfl, rfl, (lastDotIdx_none_iff rest).mp hr⟩
          · rw [if_neg hc] at h
            cases h

theorem takeWhile_no_dot (xs ys : List Char) (h : '.' ∉ xs) :
    List.takeWhile (fun c => c ≠ '.') (xs ++ '.' :: ys) = xs := by
  induction xs with
  | nil => simp
  | cons x xs ih =>
      have hx : x ≠ '.' := fun hh => h (by simp [hh])
      have h2 : ('.' : Char) ∉ xs := fun hm => h (List.mem_cons_of_mem x hm)
      have h3 := ih h2
      simp [List.takeWhile_cons, hx]
      simpa using h3

theorem dropWhile_no_dot (xs ys : List Char) (h : '.' ∉ xs) :
    List.dropWhile (fun c => c ≠ '.') (xs ++ '.' :: ys) = '.' :: ys := by
  induction xs with
  | nil => simp
  | cons x xs ih =>
      have hx : x ≠ '.' := fun hh => h (by simp [hh])
      have h2 : ('.' : Char) ∉ xs := fun hm => h (List.mem_cons_of_mem x hm)
      have h3 := ih h2
      simp [List.dropWhile_cons, hx]
      simpa using h3

theorem reverse_split (pre post : List Char) :
    (pre ++ '.' :: post).reverse = post.reverse ++ '.' :: pre.reverse := by
  simp [List.reverse_append]

theorem specStem_split (pre post : List Char) (hp : '.' ∉ post) :
    specStem (pre ++ '.' :: post) = pre := by
  have hrev : ('.' : Char) ∉ post.reverse := by simp [hp]
  rw [specStem, reverse_split, dropWhile_no_dot post.reverse pre.reverse hrev]
  simp

theorem specExt_split (pre post : List Char) (hp : '.' ∉ post) :
    specExt (pre ++ '.' :: post) = '.' :: post := by
  have hrev : ('.' : Char) ∉ post.reverse := by simp [hp]
  rw [specExt, reverse_split, takeWhile_no_dot post.reverse pre.reverse hrev]
  simp

theorem goAssetFileName_eq_spec (fileName digest : List Char) :
    goAssetFileName fileName digest = specAssetFileName fileName digest := by
  cases h : lastDotIdx fileName with
  | none =>
      have hnd : ('.' : Char) ∉ fileName := (lastDotIdx_none_iff fileName).mp h
      simp [goAssetFileName, specAssetFileName, h, hnd]
  | some i =>
      obtain ⟨pre, post, rfl, rfl, hp⟩ := lastDotIdx_some fileName i h
      have hdot : ('.' : Char) ∈ pre ++ '.' :: post := by simp
      simp only [goAssetFileName, specAssetFileName, h, if_pos hdot,
        specStem_split pre post hp, specExt_split pre post hp,
        List.take_left, List.drop_left]

/-! ## Lemmas on the digest -/

theorem sha256_length (msg : List Nat) : (sha256 msg).length = 32 := by
  simp [sha256, wordBytes]

theorem hexChars_length (bs : List Nat) : (hexChars bs).length = 2 * bs.length := by
  induction bs with
  | nil => simp [hexChars]
  | cons b rest ih =>
      simp [hexChars, byteHexChars] at ih ⊢
      omega

theorem digestChars_length (data : List Nat) : (digestChars data).length = 7 := by
  simp [digestChars, hexChars_length, sha256_length]

theorem hexDigit_mem (n : Nat) : hexDigit n ∈ hexAlphabet := by
  by_cases h : n < hexAlphabet.length
  · rw [hexDigit, List.getD_eq_getElem?_getD, List.getElem?_eq_getElem h]
    simp only [Option.getD_some]
    exact List.getElem_mem h
  · rw [hexDigit, List.getD_eq_getElem?_getD,
      List.getElem?_eq_none (Nat.le_of_not_lt h)]
    decide

theorem digestChars_mem (data : List Nat) :
    ∀ c ∈ digestChars data, c ∈ hexAlphabet := by
  intro c hc
  have h1 : c ∈ hexChars (sha256 data) := List.mem_of_mem_take hc
  obtain ⟨b, _, hcb⟩ := List.mem_flatMap.mp h1
  simp only [byteHexChars, List.mem_cons, List.not_mem_nil, or_false] at hcb
  rcases hcb with rfl | rfl
  · exact hexDigit_mem (b / 16)
  · exact hexDigit_mem (b % 16)

/-- C1: for every asset file, the fingerprinted output filename derives
exactly as the spec formula states: the digest is the first 7 characters
of the lowercase hex SHA-256 of the bytes; a base name with a dot gets
the dotted digest inserted before its last dot-delimited extension, and
one without gets the dotted digest appended. -/
theorem c1_fingerprinted_filename (data : List Nat) (fileName : List Char) :
    outputAssetName fileName data = specAssetFileName fileName (digestChars data) ∧
    digestChars data = (hexChars (sha256 data)).take 7 ∧
    (digestChars data).length = 7 ∧
    ∀ c ∈ digestChars data, c ∈ hexAlphabet :=
  ⟨goAssetFileName_eq_spec fileName (digestChars data), rfl,
   digestChars_length data, digestChars_mem data⟩

/-- Witness for C1 at the repository test's file content and a concrete
base filename. -/
theorem c1_fingerprinted_filename_witness :
    outputAssetName styleName imageBytes =
      specAssetFileName styleName (digestChars imageBytes) ∧
    (digestChars imageBytes).length = 7 :=
  ⟨(c1_fingerprinted_filename imageBytes styleName).1,
   (c1_fingerprinted_filename imageBytes styleName).2.2.1⟩

/-- C9: a base name whose only dot is its leading character is treated as
extension-only: the fingerprinted name is the dotted digest followed by
the whole original name, not the no-extension form. -/
theorem c9_dotfile_extension (rest digest : List Char) (h : '.' ∉ rest) :
    goAssetFileName ('.' :: rest) digest = '.' :: (digest ++ '.' :: rest) := by
  have h0 : lastDotIdx ('.' :: rest) = some 0 := by
    have hn := (lastDotIdx_none_iff rest).mpr h
    simp [lastDotIdx, hn]
  simp [goAssetFileName, h0]

/-- Witness for C9 at the name ".gitignore". -/
theorem c9_dotfile_extension_witness :
    goAssetFileName ('.' :: gitignoreRest) digest9 =
      '.' :: (digest9 ++ '.' :: gitignoreRest) :=
  c9_dotfile_extension gitignoreRest digest9 (by decide)

/-- C5 counterexample: two asset files with identical bytes but distinct
base names receive distinct fingerprinted output filenames, refuting the
claim that the filename is identical regardless of the original stem. -/
theorem c5_counterexample :
    outputAssetName nameA imageBytes ≠ outputAssetName nameB imageBytes := by
  decide

theorem digestChars_no_dot (data : List Nat) : '.' ∉ digestChars data := by
  intro h
  have h2 := digestChars_mem data '.' h
  revert h2
  decide

theorem goAssetFileName_none_shape (n d : List Char)
    (h : lastDotIdx n = none) :
    goAssetFileName n d = n ++ '.' :: d := by
  simp [goAssetFileName, h]

theorem goAssetFileName_some_shape (pre post d : List Char)
    (h : lastDotIdx (pre ++ '.' :: post) = some pre.length) :
    goAssetFileName (pre ++ '.' :: post) d = (pre ++ '.' :: d) ++ '.' :: post := by
  simp [goAssetFileName, h, List.take_left, List.drop_left, List.append_assoc]

/-- The filename transform is injective in the base name for a fixed
dot-free digest: distinct base names never collide on the same
fingerprinted output filename. -/
theorem goAssetFileName_inj (d n1 n2 : List Char) (hd : '.' ∉ d)
    (h : goAssetFileName n1 d = goAssetFileName n2 d) : n1 = n2 := by
  cases h1 : lastDotIdx n1 with
  | none =>
      have hn1 : ('.' : Char) ∉ n1 := (lastDotIdx_none_iff n1).mp h1
      have e1 := goAssetFileName_none_shape n1 d h1
      cases h2 : lastDotIdx n2 with
      | none =>
          have e2 := goAssetFileName_none_shape n2 d h2
          have hs : specStem (n1 ++ '.' :: d) = specStem (n2 ++ '.' :: d) := by
            rw [← e1, ← e2, h]
          rwa [specStem_split n1 d hd, specStem_split n2 d hd] at hs
      | some j =>
          obtain ⟨pre2, post2, rfl, rfl, hp2⟩ := lastDotIdx_some n2 j h2
          have e2 := goAssetFileName_some_shape pre2 post2 d h2
          have hs : specStem (n1 ++ '.' :: d) =
              specStem ((pre2 ++ '.' :: d) ++ '.' :: post2) := by
            rw [← e1, ← e2, h]
          rw [specStem_split n1 d hd, specStem_split _ post2 hp2] at hs
          have hmem : ('.' : Char) ∈ n1 := by
            rw [hs]
            simp
          exact absurd hmem hn1
  | some i =>
      obtain ⟨pre1, post1, rfl, rfl, hp1⟩ := lastDotIdx_some n1 i h1
      have e1 := goAssetFileName_some_shape pre1 post1 d h1
      cases h2 : lastDotIdx n2 with
      | none =>
          have hn2 : ('.' : Char) ∉ n2 := (lastDotIdx_none_iff n2).mp h2
          have e2 := goAssetFileName_none_shape n2 d h2
          have hs : specStem ((pre1 ++ '.' :: d) ++ '.' :: post1) =
              specStem (n2 ++ '.' :: d) := by
            rw [← e1, ← e2, h]
          rw [specStem_split _ post1 hp1, specStem_split n2 d hd] at hs
          have hmem : ('.' : Char) ∈ n2 := by
            rw [← hs]
            simp
          exact absurd hmem hn2
      | some j =>
          obtain ⟨pre2, post2, rfl, rfl, hp2⟩ := lastDotIdx_some n2 j h2
          have e2 := goAssetFileName_some_shape pre2 post2 d h2
          have hx : specExt ((pre1 ++ '.' :: d) ++ '.' :: post1) =
              specExt ((pre2 ++ '.' :: d) ++ '.' :: post2) := by
            rw [← e1, ← e2, h]
          rw [specExt_split _ post1 hp1, specExt_split _ post2 hp2] at hx
          have hpost : post1 = post2 := by
            simpa using hx
          have hs : specStem ((pre1 ++ '.' :: d) ++ '.' :: post1) =
              specStem ((pre2 ++ '.' :: d) ++ '.' :: post2) := by
            rw [← e1, ← e2, h]
          rw [specStem_split _ post1 hp1, specStem_split _ post2 hp2] at hs
          have hs2 : specStem (pre1 ++ '.' :: d) = specStem (pre2 ++ '.' :: d) := by
            rw [hs]
          rw [specStem_split pre1 d hd, specStem_split pre2 d hd] at hs2
          rw [hpost, hs2]

/-- C5 (amended): for byte-identical asset files the 7-character digest
is identical and is embedded (dot-prefixed) in the output filename; the
full output filename is determined by the base filename together with
the bytes, and coincides exactly when the base names also coincide. -/
theorem c5_digest_content_addressed (d1 d2 : List Nat) (n1 n2 : List Char)
    (hd : d1 = d2) :
    digestChars d1 = digestChars d2 ∧
    (∃ u v, outputAssetName n1 d1 = u ++ '.' :: (digestChars d1 ++ v)) ∧
    (outputAssetName n1 d1 = outputAssetName n2 d2 ↔ n1 = n2) := by
  subst hd
  refine ⟨rfl, ?_, ?_⟩
  · cases h : lastDotIdx n1 with
    | some i =>
        exact ⟨n1.take i, n1.drop i, by simp [outputAssetName, goAssetFileName, h]⟩
    | none =>
        exact ⟨n1, [], by simp [outputAssetName, goAssetFileName, h]⟩
  · constructor
    · exact fun h => goAssetFileName_inj (digestChars d1) n1 n2 (digestChars_no_dot d1) h
    · intro hn
      rw [hn]

/-- Witness for the amended C5 at the repository test's file content:
equal bytes give equal digests, and the iff applied at two distinct base
names shows their output filenames differ. -/
theorem c5_digest_content_addressed_witness :
    digestChars imageBytes = digestChars imageBytes ∧
    outputAssetName styleName imageBytes ≠ outputAssetName nameA imageBytes :=
  ⟨(c5_digest_content_addressed imageBytes imageBytes styleName nameA rfl).1,
   fun h =>
     absurd
       ((c5_digest_content_addressed imageBytes imageBytes styleName nameA rfl).2.2.mp h)
       (by decide)⟩

/-! ## Lemmatta on the render phase and the output-file map -/

theorem lookupA_insertA_self {α : Type} (t : List (List Char × α))
    (k : List Char) (v : α) : lookupA (insertA t k v) k = some v := by
  simp [insertA, lookupA]

theorem lookupA_insertA_ne {α : Type} (t : List (List Char × α))
    (k k2 : List Char) (v : α) (h : k ≠ k2) :
    lookupA (insertA t k v) k2 = lookupA t k2 := by
  simp [insertA, lookupA, h]

theorem renderModel_projections (p : List Char) (r : RenderBehavior) (fs : FS) :
    (renderModel p r fs).invoked = rInvoked r ∧
    (renderModel p r fs).err = rStepErr r := by
  cases hm : r.mkdirErr <;> cases hc : r.createErr <;>
    cases he : r.renderErr <;> cases hcl : r.closeErr <;>
      simp [renderModel, rInvoked, rStepErr, hm, hc, he, hcl]

theorem renderModel_fs_other (pa p : List Char) (r : RenderBehavior) (fs : FS)
    (h : pa ≠ p) :
    lookupA (renderModel pa r fs).fs p = lookupA fs p := by
  cases hm : r.mkdirErr <;> cases hc : r.createErr <;>
    cases he : r.renderErr <;> cases hcl : r.closeErr <;>
      simp [renderModel, hm, hc, he, hcl, lookupA_insertA_ne fs pa p _ h]

theorem renderModel_failed_fs (pa : List Char) (r : RenderBehavior) (fs : FS)
    (e : String) (hm : r.mkdirErr = none) (hc : r.createErr = none)
    (he : r.renderErr = some e) :
    (renderModel pa r fs).fs = insertA fs pa r.written := by
  simp [renderModel, hm, hc, he]

theorem renderPhase_trace (rs : List (List Char × RenderBehavior)) (fs : FS) :
    (renderPhase rs fs).trace =
      rs.map (fun pr => (pr.1, rInvoked pr.2, rStepErr pr.2)) := by
  induction rs generalizing fs with
  | nil => simp [renderPhase]
  | cons pr rest ih =>
      obtain ⟨p, r⟩ := pr
      simp [renderPhase, ih, (renderModel_projections p r fs).1,
        (renderModel_projections p r fs).2]

theorem renderPhase_logs (rs : List (List Char × RenderBehavior)) (fs : FS)
    (pr : List Char × RenderBehavior) (e : String)
    (hm : pr ∈ rs) (he : rStepErr pr.2 = some e) :
    renderErrLog pr.1 e ∈ (renderPhase rs fs).logs := by
  induction rs generalizing fs with
  | nil => cases hm
  | cons hd rest ih =>
      obtain ⟨p, r⟩ := hd
      rcases List.mem_cons.mp hm with heq | hmem
      · subst heq
        have herr : (renderModel p r fs).err = some e := by
          rw [(renderModel_projections p r fs).2]
          exact he
        simp [renderPhase, herr]
      · have hrec := ih (renderModel p r fs).fs hmem
        have hlogs : (renderPhase ((p, r) :: rest) fs).logs =
            (match (renderModel p r fs).err with
              | some e2 => [renderErrLog p e2]
              | none => []) ++ (renderPhase rest (renderModel p r fs).fs).logs := by
          simp [renderPhase]
        rw [hlogs]
        exact List.mem_append_right _ hrec

theorem renderPhase_fs_append (a b : List (List Char × RenderBehavior)) (fs : FS) :
    (renderPhase (a ++ b) fs).fs = (renderPhase b (renderPhase a fs).fs).fs := by
  induction a generalizing fs with
  | nil => simp [renderPhase]
  | cons hd rest ih =>
      obtain ⟨p, r⟩ := hd
      simp [renderPhase, ih]

theorem renderPhase_fs_other (rs : List (List Char × RenderBehavior)) (fs : FS)
    (p : List Char) (h : ∀ q ∈ rs, q.1 ≠ p) :
    lookupA (renderPhase rs fs).fs p = lookupA fs p := by
  induction rs generalizing fs with
  | nil => simp [renderPhase]
  | cons hd rest ih =>
      obtain ⟨pa, r⟩ := hd
      have h1 : pa ≠ p := h (pa, r) (List.mem_cons_self _ _)
      have h2 : ∀ q ∈ rest, q.1 ≠ p := fun q hq => h q (List.mem_cons_of_mem _ hq)
      simp [renderPhase, ih _ h2, renderModel_fs_other pa p r fs h1]

/-- C2: `Build` runs its phases in the strict source order; a failure in
any of the first four phases returns at once with the error wrapped with
the phase message and no later phase is entered, and passing all four
reaches the render phase and returns success. -/
theorem c2_build_phases (s : SiteB) (env : BuildEnv) :
    ((Build s env).phases = allPhases.take (Build s env).phases.length) ∧
    (∀ e, env.removeErr = some e →
      (Build s env).result = some (msgRemove ++ e) ∧
      (Build s env).phases = [Phase.removeOut]) ∧
    (∀ e, env.removeErr = none → env.mkdirErr = some e →
      (Build s env).result = some (msgCreate ++ e) ∧
      (Build s env).phases = [Phase.removeOut, Phase.createOut]) ∧
    (∀ e, env.removeErr = none → env.mkdirErr = none →
      runCommandsModel s.commands env.cmdErrs = some e →
      (Build s env).result = some (msgCommands ++ e) ∧
      (Build s env).phases = [Phase.removeOut, Phase.createOut, Phase.commands]) ∧
    (∀ e, env.removeErr = none → env.mkdirErr = none →
      runCommandsModel s.commands env.cmdErrs = none →
      (copyAssetsModel s env []).err = some e →
      (Build s env).result = some (msgAssets ++ e) ∧
      (Build s env).phases =
        [Phase.removeOut, Phase.createOut, Phase.commands, Phase.assets]) ∧
    (∀ e, env.removeErr = none → env.mkdirErr = none →
      runCommandsModel s.commands env.cmdErrs = none →
      (copyAssetsModel s env []).err = none →
      (copyPublicModel env (copyAssetsModel s env []).fs).err = some e →
      (Build s env).result = some (msgPublic ++ e) ∧
      (Build s env).phases =
        [Phase.removeOut, Phase.createOut, Phase.commands, Phase.assets,
         Phase.publicFiles]) ∧
    (env.removeErr = none → env.mkdirErr = none →
      runCommandsModel s.commands env.cmdErrs = none →
      (copyAssetsModel s env []).err = none →
      (copyPublicModel env (copyAssetsModel s env []).fs).err = none →
      (Build s env).result = none ∧ (Build s env).phases = allPhases) := by
  cases hrem : env.removeErr with
  | some e0 =>
      refine ⟨?_, ?_, ?_, ?_, ?_, ?_, ?_⟩ <;> simp [Build, hrem, allPhases]
  | none =>
  cases hmk : env.mkdirErr with
  | some e0 =>
      refine ⟨?_, ?_, ?_, ?_, ?_, ?_, ?_⟩ <;> simp [Build, hrem, hmk, allPhases]
  | none =>
  cases hcmd : runCommandsModel s.commands env.cmdErrs with
  | some e0 =>
      refine ⟨?_, ?_, ?_, ?_, ?_, ?_, ?_⟩ <;>
        simp [Build, hrem, hmk, hcmd, allPhases]
  | none =>
  cases har : (copyAssetsModel s env []).err with
  | some e0 =>
      refine ⟨?_, ?_, ?_, ?_, ?_, ?_, ?_⟩ <;>
        simp [Build, hrem, hmk, hcmd, har, allPhases]
  | none =>
  cases hpub : (copyPublicModel env (copyAssetsModel s env []).fs).err with
  | some e0 =>
      refine ⟨?_, ?_, ?_, ?_, ?_, ?_, ?_⟩ <;>
        simp [Build, hrem, hmk, hcmd, har, hpub, allPhases]
  | none =>
      refine ⟨?_, ?_, ?_, ?_, ?_, ?_, ?_⟩ <;>
        simp [Build, hrem, hmk, hcmd, har, hpub, allPhases]

/-- Witness for C2: on an all-success environment the build enters every
phase and returns success. -/
theorem c2_build_phases_witness :
    (Build site2 env2).result = none ∧ (Build site2 env2).phases = allPhases :=
  (c2_build_phases site2 env2).2.2.2.2.2.2 rfl rfl rfl rfl rfl

/-- C3: once the first four phases pass, every registered (path,
renderer) pair is processed with an outcome depending only on its own
behaviour, `Build` returns success regardless of renderer failures, and
each failure is logged with its target path. -/
theorem c3_render_isolation (s : SiteB) (env : BuildEnv)
    (h1 : env.removeErr = none) (h2 : env.mkdirErr = none)
    (h3 : runCommandsModel s.commands env.cmdErrs = none)
    (h4 : (copyAssetsModel s env []).err = none)
    (h5 : (copyPublicModel env (copyAssetsModel s env []).fs).err = none) :
    (Build s env).result = none ∧
    (Build s env).renderTrace =
      s.renderers.map (fun pr => (pr.1, rInvoked pr.2, rStepErr pr.2)) ∧
    ∀ pr ∈ s.renderers, ∀ e, rStepErr pr.2 = some e →
      renderErrLog pr.1 e ∈ (Build s env).logs := by
  refine ⟨?_, ?_, ?_⟩
  · simp [Build, h1, h2, h3, h4, h5]
  · simp only [Build, h1, h2, h3, h4, h5]
    exact renderPhase_trace s.renderers _
  · intro pr hpr e he
    simp only [Build, h1, h2, h3, h4, h5]
    exact renderPhase_logs s.renderers _ pr e hpr he

/-- Witness for C3: a failing renderer ahead of a succeeding one; both
are processed, the build succeeds, and the failure is logged. -/
theorem c3_render_isolation_witness :
    (Build site3 env3).result = none ∧
    (Build site3 env3).renderTrace =
      [(pBad3, true, some msg3), (pGood3, true, none)] ∧
    renderErrLog pBad3 msg3 ∈ (Build site3 env3).logs :=
  ⟨(c3_render_isolation site3 env3 rfl rfl rfl rfl rfl).1,
   ((c3_render_isolation site3 env3 rfl rfl rfl rfl rfl).2.1).trans (by decide),
   (c3_render_isolation site3 env3 rfl rfl rfl rfl rfl).2.2
     (pBad3, rBad3) (by decide) msg3 rfl⟩

/-- C10: rendering is not atomic per file. When a renderer whose
directory and file creation succeed then fails, the output file at its
path remains, holding exactly the bytes the renderer wrote before
failing, and the build still returns success. -/
theorem c10_render_partial_file (s : SiteB) (env : BuildEnv)
    (pre post : List (List Char × RenderBehavior)) (p : List Char)
    (r : RenderBehavior) (e : String)
    (hr : s.renderers = pre ++ (p, r) :: post)
    (h1 : env.removeErr = none) (h2 : env.mkdirErr = none)
    (h3 : runCommandsModel s.commands env.cmdErrs = none)
    (h4 : (copyAssetsModel s env []).err = none)
    (h5 : (copyPublicModel env (copyAssetsModel s env []).fs).err = none)
    (hm : r.mkdirErr = none) (hc : r.createErr = none)
    (he : r.renderErr = some e)
    (hpost : ∀ q ∈ post, q.1 ≠ p) :
    (Build s env).result = none ∧
    lookupA (Build s env).outFiles p = some r.written := by
  constructor
  · simp [Build, h1, h2, h3, h4, h5]
  · simp only [Build, h1, h2, h3, h4, h5, hr]
    rw [renderPhase_fs_append]
    have hcons : (renderPhase ((p, r) :: post)
        (renderPhase pre (copyPublicModel env (copyAssetsModel s env []).fs).fs).fs).fs =
        (renderPhase post (renderModel p r
          (renderPhase pre (copyPublicModel env (copyAssetsModel s env []).fs).fs).fs).fs).fs := by
      simp [renderPhase]
    rw [hcons, renderPhase_fs_other post _ p hpost,
      renderModel_failed_fs p r _ e hm hc he, lookupA_insertA_self]

/-- Witness for C10: the partially writing renderer leaves its two bytes
at its path while the build succeeds. -/
theorem c10_render_partial_file_witness :
    (Build site10 env10).result = none ∧
    lookupA (Build site10 env10).outFiles p10 = some r10.written :=
  c10_render_partial_file site10 env10 [] [] p10 r10 msg10
    rfl rfl rfl rfl rfl rfl rfl rfl rfl (by simp)

/-- C6 counterexample: a build over an assets directory holding one file
changes the asset table, refuting the claim that no `Build` phase adds
an entry to it: the table is empty before the build and holds the new
fingerprint mapping afterwards. -/
theorem c6_counterexample : (Build site6 env6).assetsAfter ≠ site6.assets := by
  decide

/-- C6 (amended): `Build` never mutates the renderer and command
registries, and the asset table is written only by the asset-copy phase:
once the command phase passes, the final table is exactly the output of
`copyAssets`, and on earlier failures it is unchanged. -/
theorem c6_amended_registry_frame (s : SiteB) (env : BuildEnv) :
    (Build s env).commandsAfter = s.commands ∧
    (Build s env).renderersAfter = s.renderers ∧
    ((Build s env).assetsAfter = s.assets ∨
      (Build s env).assetsAfter = (copyAssetsModel s env []).table) ∧
    (env.removeErr = none → env.mkdirErr = none →
      runCommandsModel s.commands env.cmdErrs = none →
      (Build s env).assetsAfter = (copyAssetsModel s env []).table) := by
  cases hrem : env.removeErr with
  | some e0 => refine ⟨?_, ?_, Or.inl ?_, ?_⟩ <;> simp [Build, hrem]
  | none =>
  cases hmk : env.mkdirErr with
  | some e0 => refine ⟨?_, ?_, Or.inl ?_, ?_⟩ <;> simp [Build, hrem, hmk]
  | none =>
  cases hcmd : runCommandsModel s.commands env.cmdErrs with
  | some e0 =>
      refine ⟨?_, ?_, Or.inl ?_, ?_⟩ <;> simp [Build, hrem, hmk, hcmd]
  | none =>
  cases har : (copyAssetsModel s env []).err with
  | some e0 =>
      refine ⟨?_, ?_, Or.inr ?_, ?_⟩ <;> simp [Build, hrem, hmk, hcmd, har]
  | none =>
  cases hpub : (copyPublicModel env (copyAssetsModel s env []).fs).err with
  | some e0 =>
      refine ⟨?_, ?_, Or.inr ?_, ?_⟩ <;> simp [Build, hrem, hmk, hcmd, har, hpub]
  | none =>
      refine ⟨?_, ?_, Or.inr ?_, ?_⟩ <;> simp [Build, hrem, hmk, hcmd, har, hpub]

/-- Witness for the amended C6 at the one-asset build. -/
theorem c6_amended_registry_frame_witness :
    (Build site6 env6).commandsAfter = site6.commands ∧
    (Build site6 env6).renderersAfter = site6.renderers ∧
    (Build site6 env6).assetsAfter = (copyAssetsModel site6 env6 []).table :=
  ⟨(c6_amended_registry_frame site6 env6).1,
   (c6_amended_registry_frame site6 env6).2.1,
   (c6_amended_registry_frame site6 env6).2.2.2 rfl rfl rfl⟩

/-- C8: looking up an unregistered logical asset name panics (modelled
as an error value, never a successful path), and looking up a registered
name yields its recorded fingerprinted path prefixed by a slash and the
assets route segment. -/
theorem c8_asset_lookup (dirName : List Char) (table : Table) (name : List Char) :
    (lookupA table name = none →
      AssetModel dirName table name = Except.error panicMsgAsset ∧
      ∀ p2, AssetModel dirName table name ≠ Except.ok p2) ∧
    ∀ p2, lookupA table name = some p2 →
      AssetModel dirName table name = Except.ok ('/' :: (dirName ++ '/' :: p2)) := by
  constructor
  · intro h
    constructor
    · simp [AssetModel, h]
    · intro p2
      simp [AssetModel, h]
  · intro p2 h
    simp [AssetModel, h]

/-- Witness for C8: a missing name panics, a present name resolves to
its slash-prefixed route. -/
theorem c8_asset_lookup_witness :
    AssetModel assetsSeg table8 missName8 = Except.error panicMsgAsset ∧
    AssetModel assetsSeg table8 imgKey =
      Except.ok ('/' :: (assetsSeg ++ '/' :: imgVal)) :=
  ⟨((c8_asset_lookup assetsSeg table8 missName8).1 (by decide)).1,
   (c8_asset_lookup assetsSeg table8 imgKey).2 imgVal (by decide)⟩

/-! ## Lemmas on the configuration queue -/

theorem sizeL_append (a b : List Step) : sizeL (a ++ b) = sizeL a + sizeL b := by
  induction a with
  | nil => simp [sizeL]
  | cons s rest ih =>
      cases s with
      | mk l e cs =>
          simp [sizeL, ih]
          omega

theorem sizeL_flatMap_children (q : List Step) :
    sizeL (q.flatMap Step.children) + q.length = sizeL q := by
  induction q with
  | nil => simp [sizeL]
  | cons s rest ih =>
      cases s with
      | mk l e cs =>
          simp [sizeL, Step.children, sizeL_append]
          omega

theorem drainTrace_nil : drainTrace [] = ([], none) := by
  simp [drainTrace]

theorem drainTrace_cons_err (l : Nat) (e : String) (cs rest : List Step) :
    drainTrace (Step.mk l (some e) cs :: rest) = ([l], some e) := by
  rw [drainTrace]

theorem drainTrace_cons_ok (l : Nat) (cs rest : List Step) :
    drainTrace (Step.mk l none cs :: rest) =
      (l :: (drainTrace (rest ++ cs)).1, (drainTrace (rest ++ cs)).2) := by
  rw [drainTrace]

theorem levelAnn_cons (s : Step) (rest : List Step) :
    levelAnn (s :: rest) =
      (s :: rest).map (fun t => (t.label, t.err)) ++
        levelAnn ((s :: rest).flatMap Step.children) := by
  rw [levelAnn]

theorem levelOrder_cons (s : Step) (rest : List Step) :
    levelOrder (s :: rest) =
      (s :: rest).map Step.label ++
        levelOrder ((s :: rest).flatMap Step.children) := by
  rw [levelOrder]

theorem levelAnn_ne_nil (q : List Step) (h : q ≠ []) :
    levelAnn q =
      q.map (fun t => (t.label, t.err)) ++ levelAnn (q.flatMap Step.children) := by
  cases q with
  | nil => exact absurd rfl h
  | cons s rest => exact levelAnn_cons s rest

theorem drainTrace_append_ok :
    ∀ (q r : List Step), (∀ s ∈ q, Step.err s = none) →
      drainTrace (q ++ r) =
        (q.map Step.label ++ (drainTrace (r ++ q.flatMap Step.children)).1,
          (drainTrace (r ++ q.flatMap Step.children)).2) := by
  intro q
  induction q with
  | nil =>
      intro r h
      simp
  | cons s rest ih =>
      intro r h
      cases s with
      | mk l e cs =>
          have he : e = none := by
            have h0 := h (Step.mk l e cs) (List.mem_cons_self _ _)
            simpa [Step.err] using h0
          subst he
          have h2 : ∀ t ∈ rest, Step.err t = none :=
            fun t ht => h t (List.mem_cons_of_mem _ ht)
          rw [List.cons_append, drainTrace_cons_ok, List.append_assoc,
            ih (r ++ cs) h2]
          simp [Step.label, Step.children, List.append_assoc]

theorem firstErrSplit (q : List Step) :
    (∀ s ∈ q, Step.err s = none) ∨
    ∃ q1 b q2, q = q1 ++ b :: q2 ∧ (∀ s ∈ q1, Step.err s = none) ∧
      ∃ e, Step.err b = some e := by
  induction q with
  | nil =>
      left
      simp
  | cons s rest ih =>
      cases hs : Step.err s with
      | some e =>
          right
          exact ⟨[], s, rest, rfl, by simp, e, hs⟩
      | none =>
          rcases ih with hok | ⟨q1, b, q2, hq, hq1, e, hb⟩
          · left
            intro t ht
            rcases List.mem_cons.mp ht with rfl | hm
            · exact hs
            · exact hok t hm
          · right
            refine ⟨s :: q1, b, q2, by simp [hq], ?_, e, hb⟩
            intro t ht
            rcases List.mem_cons.mp ht with rfl | hm
            · exact hs
            · exact hq1 t hm

theorem runUntilErr_append_ok :
    ∀ (l1 l2 : List (Nat × Option String)), (∀ p ∈ l1, p.2 = none) →
      runUntilErr (l1 ++ l2) =
        (l1.map Prod.fst ++ (runUntilErr l2).1, (runUntilErr l2).2) := by
  intro l1
  induction l1 with
  | nil =>
      intro l2 h
      simp
  | cons p rest ih =>
      intro l2 h
      obtain ⟨l, e⟩ := p
      have he : e = none := h (l, e) (List.mem_cons_self _ _)
      subst he
      have h2 : ∀ p ∈ rest, p.2 = none :=
        fun p hp => h p (List.mem_cons_of_mem _ hp)
      simp [runUntilErr, ih l2 h2]

theorem runUntilErr_all_ok (l : List (Nat × Option String))
    (h : ∀ p ∈ l, p.2 = none) :
    runUntilErr l = (l.map Prod.fst, none) := by
  have h1 := runUntilErr_append_ok l [] h
  simpa [runUntilErr] using h1

theorem levelAnn_fst_aux :
    ∀ (n : Nat) (q : List Step), sizeL q ≤ n →
      (levelAnn q).map Prod.fst = levelOrder q := by
  intro n
  induction n with
  | zero =>
      intro q h
      cases q with
      | nil => simp [levelAnn, levelOrder]
      | cons s rest =>
          cases s with
          | mk l e cs => simp [sizeL] at h
  | succ n ihn =>
      intro q h
      cases q with
      | nil => simp [levelAnn, levelOrder]
      | cons s rest =>
          rw [levelAnn_cons, levelOrder_cons, List.map_append, List.map_map]
          have hsz : sizeL ((s :: rest).flatMap Step.children) ≤ n := by
            have h2 := sizeL_flatMap_children (s :: rest)
            have h3 : 1 ≤ (s :: rest).length := by simp
            omega
          rw [ihn _ hsz]
          congr 1

theorem levelAnn_fst (q : List Step) :
    (levelAnn q).map Prod.fst = levelOrder q :=
  levelAnn_fst_aux (sizeL q) q le_rfl

theorem allOkL_roots :
    ∀ (q : List Step), allOkL q = true → ∀ s ∈ q, Step.err s = none := by
  intro q
  induction q with
  | nil => simp
  | cons s rest ih =>
      cases s with
      | mk l e cs =>
          intro h t ht
          rw [allOkL] at h
          simp only [Bool.and_eq_true, Option.isNone_iff_eq_none] at h
          rcases List.mem_cons.mp ht with rfl | hm
          · simpa [Step.err] using h.1.1
          · exact ih h.2 t hm

theorem allOkL_append (a b : List Step) :
    allOkL (a ++ b) = (allOkL a && allOkL b) := by
  induction a with
  | nil => simp [allOkL]
  | cons s rest ih =>
      cases s with
      | mk l e cs => simp [allOkL, ih, Bool.and_assoc]

theorem allOkL_flatMap :
    ∀ (q : List Step), allOkL q = true →
      allOkL (q.flatMap Step.children) = true := by
  intro q
  induction q with
  | nil => simp
  | cons s rest ih =>
      cases s with
      | mk l e cs =>
          intro h
          rw [allOkL] at h
          simp only [Bool.and_eq_true] at h
          simp [Step.children, allOkL_append, h.1.2, ih h.2]

theorem allOk_levelAnn_aux :
    ∀ (n : Nat) (q : List Step), sizeL q ≤ n → allOkL q = true →
      ∀ p ∈ levelAnn q, p.2 = none := by
  intro n
  induction n with
  | zero =>
      intro q h hok
      cases q with
      | nil => simp [levelAnn]
      | cons s rest =>
          cases s with
          | mk l e cs => simp [sizeL] at h
  | succ n ihn =>
      intro q h hok
      cases q with
      | nil => simp [levelAnn]
      | cons s rest =>
          rw [levelAnn_cons]
          intro p hp
          rcases List.mem_append.mp hp with hl | hr
          · obtain ⟨t, ht, rfl⟩ := List.mem_map.mp hl
            exact allOkL_roots (s :: rest) hok t ht
          · have hsz : sizeL ((s :: rest).flatMap Step.children) ≤ n := by
              have h2 := sizeL_flatMap_children (s :: rest)
              have h3 : 1 ≤ (s :: rest).length := by simp
              omega
            exact ihn _ hsz (allOkL_flatMap (s :: rest) hok) p hr

theorem allOk_levelAnn (q : List Step) (hok : allOkL q = true) :
    ∀ p ∈ levelAnn q, p.2 = none :=
  allOk_levelAnn_aux (sizeL q) q le_rfl hok

theorem dfsL_append (a b : List Step) : dfsL (a ++ b) = dfsL a ++ dfsL b := by
  induction a with
  | nil => simp [dfsL]
  | cons s rest ih =>
      cases s with
      | mk l e cs => simp [dfsL, ih]

theorem perm_level_step :
    ∀ (q : List Step),
      (q.map Step.label ++ dfsL (q.flatMap Step.children)).Perm (dfsL q) := by
  intro q
  induction q with
  | nil => simp [dfsL]
  | cons s rest ih =>
      cases s with
      | mk l e cs =>
          simp only [List.map_cons, List.flatMap_cons, Step.label, Step.children,
            dfsL, dfsL_append, List.cons_append]
          refine List.Perm.cons l ?_
          have h1 : rest.map Step.label ++ (dfsL cs ++ dfsL (rest.flatMap Step.children)) =
              (rest.map Step.label ++ dfsL cs) ++ dfsL (rest.flatMap Step.children) := by
            simp [List.append_assoc]
          rw [h1]
          refine (List.Perm.append_right _ List.perm_append_comm).trans ?_
          rw [List.append_assoc]
          exact List.Perm.append_left _ ih

theorem levelOrder_perm_dfs_aux :
    ∀ (n : Nat) (q : List Step), sizeL q ≤ n → (levelOrder q).Perm (dfsL q) := by
  intro n
  induction n with
  | zero =>
      intro q h
      cases q with
      | nil => simp [levelOrder, dfsL]
      | cons s rest =>
          cases s with
          | mk l e cs => simp [sizeL] at h
  | succ n ihn =>
      intro q h
      cases q with
      | nil => simp [levelOrder, dfsL]
      | cons s rest =>
          rw [levelOrder_cons]
          have hsz : sizeL ((s :: rest).flatMap Step.children) ≤ n := by
            have h2 := sizeL_flatMap_children (s :: rest)
            have h3 : 1 ≤ (s :: rest).length := by simp
            omega
          exact (List.Perm.append_left _ (ihn _ hsz)).trans
            (perm_level_step (s :: rest))

theorem levelOrder_perm_dfs (q : List Step) : (levelOrder q).Perm (dfsL q) :=
  levelOrder_perm_dfs_aux (sizeL q) q le_rfl

theorem drainTrace_eq_runUntilErr_aux :
    ∀ (n : Nat) (q : List Step), sizeL q ≤ n →
      drainTrace q = runUntilErr (levelAnn q) := by
  intro n
  induction n with
  | zero =>
      intro q h
      cases q with
      | nil => simp [drainTrace_nil, levelAnn, runUntilErr]
      | cons s rest =>
          cases s with
          | mk l e cs => simp [sizeL] at h
  | succ n ihn =>
      intro q h
      cases q with
      | nil => simp [drainTrace_nil, levelAnn, runUntilErr]
      | cons s rest =>
          rcases firstErrSplit (s :: rest) with hok | ⟨q1, b, q2, hq, hq1, e, hb⟩
          · have hmap : ∀ p ∈ (s :: rest).map (fun t => (t.label, t.err)), p.2 = none := by
              intro p hp
              obtain ⟨t, ht, rfl⟩ := List.mem_map.mp hp
              exact hok t ht
            have h1 := drainTrace_append_ok (s :: rest) [] hok
            have hsz : sizeL ((s :: rest).flatMap Step.children) ≤ n := by
              have h2 := sizeL_flatMap_children (s :: rest)
              have h3 : 1 ≤ (s :: rest).length := by simp
              omega
            rw [levelAnn_cons, runUntilErr_append_ok _ _ hmap,
              ← ihn _ hsz, List.map_map]
            simpa using h1
          · rw [hq]
            cases b with
            | mk lb eb csb =>
                have heb : eb = some e := by simpa [Step.err] using hb
                subst heb
                rw [drainTrace_append_ok q1 _ hq1, List.cons_append,
                  drainTrace_cons_err]
                have hmap : ∀ p ∈ q1.map (fun t => (t.label, t.err)), p.2 = none := by
                  intro p hp
                  obtain ⟨t, ht, rfl⟩ := List.mem_map.mp hp
                  exact hq1 t ht
                rw [levelAnn_ne_nil _ (by simp), List.map_append,
                  List.append_assoc, runUntilErr_append_ok _ _ hmap]
                simp [runUntilErr, Step.label, Step.err, List.map_map]

theorem drainTrace_eq_runUntilErr (q : List Step) :
    drainTrace q = runUntilErr (levelAnn q) :=
  drainTrace_eq_runUntilErr_aux (sizeL q) q le_rfl

/-- C4: with no failing step, the drain of `New` empties the queue,
invoking every step exactly once (the trace is a permutation of the
forest's nodes) in breadth-first generation order; in particular all
steps in the queue when the head runs execute before any step the head
enqueues. -/
theorem c4_queue_fifo_drain (q : List Step) (h : allOkL q = true) :
    drainTrace q = (levelOrder q, none) ∧
    (drainTrace q).1.Perm (dfsL q) ∧
    (drainTrace q).1 =
      q.map Step.label ++ (drainTrace (q.flatMap Step.children)).1 := by
  have hok := allOk_levelAnn q h
  have h1 : drainTrace q = (levelOrder q, none) := by
    rw [drainTrace_eq_runUntilErr q, runUntilErr_all_ok _ hok, levelAnn_fst]
  refine ⟨h1, ?_, ?_⟩
  · rw [h1]
    exact levelOrder_perm_dfs q
  · have h3 := drainTrace_append_ok q [] (allOkL_roots q h)
    have h4 := congrArg Prod.fst h3
    simpa using h4

/-- Witness for C4 at a two-generation forest. -/
theorem c4_queue_fifo_drain_witness :
    drainTrace q4 = (levelOrder q4, none) ∧
    (drainTrace q4).1 =
      q4.map Step.label ++ (drainTrace (q4.flatMap Step.children)).1 :=
  ⟨(c4_queue_fifo_drain q4 (by simp [allOkL, q4])).1,
   (c4_queue_fifo_drain q4 (by simp [allOkL, q4])).2.2⟩

/-- C7: the drain stops at the first failing step of the breadth-first
order, so steps still queued behind it are never invoked, and `New`
returns the step's error rather than any Site value. -/
theorem c7_config_error_aborts (initial : Step) :
    drainTrace [initial] = runUntilErr (levelAnn [initial]) ∧
    ∀ e, (drainTrace [initial]).2 = some e →
      NewModel initial = Except.error e := by
  refine ⟨drainTrace_eq_runUntilErr [initial], ?_⟩
  intro e he
  rcases hd : drainTrace [initial] with ⟨tr, r⟩
  rw [hd] at he
  simp only at he
  subst he
  simp [NewModel, hd]

/-- Witness for C7: a failing enqueued step aborts construction while a
sibling and a grandchild are still queued. -/
theorem c7_config_error_aborts_witness :
    drainTrace [init7] = runUntilErr (levelAnn [init7]) ∧
    NewModel init7 = Except.error msg7 :=
  ⟨(c7_config_error_aborts init7).1,
   (c7_config_error_aborts init7).2 msg7
     (by simp [init7, drainTrace_cons_ok, drainTrace_cons_err, drainTrace_nil])⟩

end Web
